import Mathlib

/-!
A verification development for the Kodgen multi-pass parse-and-generate
driver.  C++ strings are embedded as `List Char`; the driver's file sets
(`std::set<fs::path>`) are embedded as duplicate-free lists kept in their
iteration order; the concurrent phases of the engines are embedded as the
linearisation imposed by the `joinWorkers` barriers and the
`setIsRunning(false)` submission gates (all tasks of a phase complete
before the next phase's events, and driver-side events between two
barriers happen while no task runs).  External outcomes (filesystem
state, clang diagnostics, generation success) are supplied as oracle
parameters, so every embedded function is a pure, executable Lean
function of its inputs.
-/

namespace Kodgen

/-- The single-quote character (ASCII 39), used by clang's
"unknown type name" diagnostics around the offending identifier. -/
def qchar : Char := Char.ofNat 39

/-- `std::string::find(c)`: index of the first occurrence of character
`c`, `none` standing for `std::string::npos`. -/
def strFind (c : Char) : List Char → Option Nat
  | [] => none
  | x :: xs => if x = c then some 0 else (strFind c xs).map (· + 1)

/-- `std::string::rfind(c)`: index of the last occurrence of character
`c`, `none` standing for `std::string::npos`. -/
def strRFind (c : Char) (l : List Char) : Option Nat :=
  (strFind c l.reverse).map (fun j => l.length - 1 - j)

/-- `std::set<std::string>::insert`: add a string to a string set
(membership is what matters; the embedding appends new elements). -/
def insertStr (x : List Char) (s : List (List Char)) : List (List Char) :=
  if x ∈ s then s else s ++ [x]

/-- `FileParser::splitMacroPattern` (FileParser.cpp:373-400): the text
before the first `#` and the text after the last `#`; both components
are empty when the pattern holds no `#` at all.  The source guard
`rightSharpPos != macroPattern.size()` is kept although a found index is
always smaller than the size. -/
def splitMacroPattern (macroPattern : List Char) : List Char × List Char :=
  match strFind '#' macroPattern with
  | none => ([], [])
  | some leftSharpPos =>
    let leftText := if leftSharpPos ≠ 0 then macroPattern.take leftSharpPos else []
    match strRFind '#' macroPattern with
    | none => ([], [])
    | some rightSharpPos =>
      let rightText :=
        if rightSharpPos ≠ macroPattern.length then macroPattern.drop (rightSharpPos + 1) else []
      (leftText, rightText)

/-- A clang diagnostic as consumed by `FileParser::getErrors`: its
spelling and its expansion location (file, line, column). -/
structure Diagnostic where
  spelling : List Char
  file : List Char
  line : Nat
  column : Nat
deriving DecidableEq

/-- The prefix searched for in diagnostic spellings
(FileParser.cpp:424). -/
def unknownTypeNameText : List Char := ("unknown type name ".data) ++ [qchar]

/-- The error entry pushed for a non-suppressed diagnostic
(FileParser.cpp:461-462). -/
def errorEntry (d : Diagnostic) : List Char :=
  d.spelling ++ (" (".data) ++ d.file ++ (", line ".data) ++ ((Nat.repr d.line).data)
    ++ (", column ".data) ++ ((Nat.repr d.column).data) ++ (")".data)

/-- The identifier the source slices out of a spelling, always at the
fixed offset `unknownTypeNameText.length` and dropping the final
character of the whole spelling (FileParser.cpp:446-447). -/
def extractedTypeName (spelling : List Char) : List Char :=
  (spelling.drop unknownTypeNameText.length).take
    (spelling.length - 1 - unknownTypeNameText.length)

/-- The loop body of `FileParser::getErrors` (FileParser.cpp:427-465)
for one diagnostic; the accumulator carries the error list and the
`notFoundGeneratedMacroNames` set. -/
def processDiagnostic (fileFooterName lcf rcf toParseFile : List Char)
    (acc : List (List Char) × List (List Char)) (d : Diagnostic) :
    List (List Char) × List (List Char) :=
  if unknownTypeNameText <:+: d.spelling ∧ d.file = toParseFile then
    let unknownTypeName := extractedTypeName d.spelling
    if unknownTypeName = fileFooterName then
      (acc.1, insertStr fileFooterName acc.2)
    else if lcf <:+: unknownTypeName ∧ rcf <:+: unknownTypeName then
      (acc.1, insertStr unknownTypeName acc.2)
    else
      (acc.1 ++ [errorEntry d], acc.2)
  else
    (acc.1 ++ [errorEntry d], acc.2)

/-- The error returned when the class footer macro pattern does not
split (FileParser.cpp:414-417). -/
def classFooterSplitError : List Char :=
  ("failed to split class footer macro pattern".data)

/-- The error returned when the generated header file name pattern does
not split (FileParser.cpp:418-422). -/
def headerPatternSplitError : List Char :=
  ("failed to split generated header file name pattern".data)

/-- `FileParser::getErrors` (FileParser.cpp:402-470), with the values
obtained from the code generation settings passed as inputs:
`fileFooterName` is `getHeaderFileFooterMacro(toParseFile)`,
`classFooterPattern` is `getClassFooterMacroPattern()` and
`headerNamePattern` is `getGeneratedHeaderFileNamePattern()`.  Returns
the error list together with the final
`notFoundGeneratedMacroNames` set (an in-out parameter in the
source). -/
def getErrors (fileFooterName classFooterPattern headerNamePattern : List Char)
    (toParseFile : List Char) (diags : List Diagnostic)
    (notFoundNames : List (List Char)) :
    List (List Char) × List (List Char) :=
  let s1 := splitMacroPattern classFooterPattern
  if s1.1 = [] ∧ s1.2 = [] then
    ([classFooterSplitError], notFoundNames)
  else
    let s2 := splitMacroPattern headerNamePattern
    if s2.1 = [] ∧ s2.2 = [] then
      ([headerPatternSplitError], notFoundNames)
    else
      diags.foldl (processDiagnostic fileFooterName s1.1 s1.2 toParseFile) ([], notFoundNames)

/-- The filesystem and clang state `FileParser::prepareForParsing`
observes for one file: whether the path exists, whether it is a
directory, and the diagnostics of the translation unit when clang
creates one (`none` when `clang_parseTranslationUnit` returns null). -/
structure ParseEnv where
  pathExists : Bool
  isDirectory : Bool
  translationUnit : Option (List Diagnostic)

/-- Log line emitted when the translation unit cannot be created
(FileParser.cpp:53). -/
def tuFailureLog (toParseFile : List Char) : List Char :=
  ("Failed to initialize translation unit for file: ".data) ++ toParseFile

/-- `FileParser::prepareForParsing` (FileParser.cpp:43-64): returns the
boolean result, the final state of the caller's
`notFoundGeneratedMacroNames` set (an in-out reference in the source)
and the log lines emitted.  On success the set is cleared and then
filled by `getErrors`, whose error list is discarded. -/
def prepareForParsing (env : ParseEnv)
    (fileFooterName classFooterPattern headerNamePattern toParseFile : List Char)
    (notFoundNames : List (List Char)) :
    Bool × List (List Char) × List (List Char) :=
  if !env.pathExists || env.isDirectory then
    (false, notFoundNames, [])
  else
    match env.translationUnit with
    | none => (false, notFoundNames, [tuFailureLog toParseFile])
    | some diags =>
      (true,
        (getErrors fileFooterName classFooterPattern headerNamePattern toParseFile diags []).2,
        [])

/-- A diagnostic whose spelling contains, but does not start with, the
searched text; its quoted identifier is MYGEN. -/
def containmentCexDiag : Diagnostic :=
  ⟨("zz unknown type name ".data) ++ [qchar] ++ ("MYGEN".data) ++ [qchar], ("F.h".data), 1, 2⟩

/-- A diagnostic whose spelling is exactly the searched form with the
quoted identifier MYGEN. -/
def exactFormDiag : Diagnostic :=
  ⟨unknownTypeNameText ++ ("MYGEN".data) ++ [qchar], ("F.h".data), 1, 2⟩

/-- A genuine diagnostic located in a file other than the parsed
one. -/
def otherFileDiag : Diagnostic := ⟨("boom".data), ("other.h".data), 3, 4⟩

/-- The retry set rebuilt by the parse tasks of one strict iteration
(CodeGenManager.inl:110-118): the batch's files whose parse produced at
least one error go back into `filesLeftToProcess`.  `std::set` keeps the
batch ordered, so re-inserting failing files yields this ordered
sublist. -/
def retryOf {α ε : Type} (parseErrs : α → List ε) (batch : List α) : List α :=
  batch.filter (fun f => !(parseErrs f).isEmpty)

/-- The file/error pairs pushed into `parsingResultsOfFailedFiles`
during one strict iteration (CodeGenManager.inl:110-115): one pair per
error of a failed parse. -/
def failedPairsOf {α ε : Type} (parseErrs : α → List ε) (batch : List α) : List (α × ε) :=
  batch.flatMap (fun f => (parseErrs f).map (fun e => (f, e)))

/-- The files for which one strict iteration truncates the artifact and
submits a generation task (CodeGenManager.inl:141-186): the batch's
files that are not found in `filesLeftToProcess` by the linear scan at
lines 145-152. -/
def genFilesOf {α ε : Type} [DecidableEq α] (parseErrs : α → List ε) (batch : List α) :
    List α :=
  batch.filter (fun f => !(decide (f ∈ retryOf parseErrs batch)))

/-- Completion flags of the generation tasks of one strict iteration:
`generateCode`'s return value for each file whose parse succeeded (the
parse result handed to a submitted generation task always has an empty
error list, since the parse task cleared it, so `generateCode` is always
invoked; CodeGenManager.inl:165-184). -/
def genResultsOf {α ε : Type} [DecidableEq α] (parseErrs : α → List ε) (genOk : α → Bool)
    (batch : List α) : List Bool :=
  (genFilesOf parseErrs batch).map genOk

/-- State threaded through the strict do-while loop
(CodeGenManager.inl:44-191): `parsedFiles` mirrors
`out_genResult.parsedFiles`, `genResults` the completion flags of the
accumulated generation tasks, `lastFailed` the current value of
`parsingResultsOfFailedFiles` (cleared at each iteration start) and
`remaining` the `filesLeftToProcess` set; `batches` additionally records
the batch of every iteration (bookkeeping for the statements below, not
source state). -/
structure StrictAcc (α ε : Type) where
  parsedFiles : List α
  genResults : List Bool
  batches : List (List α)
  lastFailed : List (α × ε)
  remaining : List α
deriving DecidableEq

/-- The body of one strict iteration, as it updates the loop state. -/
def strictStep {α ε : Type} [DecidableEq α] (parseErrs : Nat → α → List ε)
    (genOk : Nat → α → Bool) (i : Nat) (batch : List α) (acc : StrictAcc α ε) :
    StrictAcc α ε :=
  { parsedFiles := acc.parsedFiles ++ batch
    genResults := acc.genResults ++ genResultsOf (parseErrs i) (genOk i) batch
    batches := acc.batches ++ [batch]
    lastFailed := failedPairsOf (parseErrs i) batch
    remaining := retryOf (parseErrs i) batch }

/-- The strict do-while loop (CodeGenManager.inl:44-191): iteration `i`
processes the batch `rem`; the loop repeats while `filesLeftToProcess`
is non-empty and its size differs from the size recorded before the
iteration (`filesLeftBefore`, the batch size). -/
def strictLoop {α ε : Type} [DecidableEq α] (parseErrs : Nat → α → List ε)
    (genOk : Nat → α → Bool) (i : Nat) (rem : List α) (acc : StrictAcc α ε) :
    StrictAcc α ε :=
  if h : ¬(retryOf (parseErrs i) rem).isEmpty
      ∧ (retryOf (parseErrs i) rem).length ≠ rem.length then
    strictLoop parseErrs genOk (i + 1) (retryOf (parseErrs i) rem)
      (strictStep parseErrs genOk i rem acc)
  else
    strictStep parseErrs genOk i rem acc
termination_by rem.length
decreasing_by
  have hle : (retryOf (parseErrs i) rem).length ≤ rem.length := List.length_filter_le _ _
  obtain ⟨h1, h2⟩ := h
  omega

/-- The `(iteration index, batch)` pairs of the strict loop, in order
(a ghost view of the same recursion used to state the theorems). -/
def strictRounds {α ε : Type} (parseErrs : Nat → α → List ε) (i : Nat) (rem : List α) :
    List (Nat × List α) :=
  if ¬(retryOf (parseErrs i) rem).isEmpty
      ∧ (retryOf (parseErrs i) rem).length ≠ rem.length then
    (i, rem) :: strictRounds parseErrs (i + 1) (retryOf (parseErrs i) rem)
  else
    [(i, rem)]
termination_by rem.length
decreasing_by
  have hle : (retryOf (parseErrs i) rem).length ≤ rem.length := List.length_filter_le _ _
  omega

/-- The `(iteration index, batch)` of the last strict iteration (the one
after which the loop condition fails). -/
def finalRound {α ε : Type} (parseErrs : Nat → α → List ε) (i : Nat) (rem : List α) :
    Nat × List α :=
  if ¬(retryOf (parseErrs i) rem).isEmpty
      ∧ (retryOf (parseErrs i) rem).length ≠ rem.length then
    finalRound parseErrs (i + 1) (retryOf (parseErrs i) rem)
  else
    (i, rem)
termination_by rem.length
decreasing_by
  have hle : (retryOf (parseErrs i) rem).length ≤ rem.length := List.length_filter_le _ _
  omega

/-- Modelled from the spec: `CodeGenResult::mergeResult` is declared in
a header that is not under src/; spec section 7 fixes its effect on
`completed` (completed stays true only while no merged generation result
reports failure), so merging ANDs the completion flags into the
accumulated one. -/
def mergeCompleted (completed : Bool) (generationResults : List Bool) : Bool :=
  generationResults.foldl (fun a b => a && b) completed

/-- The observable outcome of a strict-engine run. -/
structure StrictRunResult (α : Type) where
  completed : Bool
  parsedFiles : List α
  remaining : List α
  batches : List (List α)
  genResults : List Bool
deriving DecidableEq

/-- `CodeGenManager::processFilesFailOnErrors` (CodeGenManager.inl:22-212),
driven by oracles: `parseErrs i f` is the error list produced by
`parseFailOnErrors` for file `f` during iteration `i` and `genOk i f`
the return value of `generateCode` for a generation task submitted in
iteration `i`.  `hasLogger` tells whether the manager's `logger` member
is non-null: the check that turns `completed` to false when
`parsingResultsOfFailedFiles` is non-empty sits inside the
`if (logger != nullptr)` block (lines 194-205).  `initCompleted` is the
`completed` value of the result passed in by `run` (true at that call
site, line 299). -/
def processFilesFailOnErrors {α ε : Type} [DecidableEq α] (hasLogger : Bool)
    (parseErrs : Nat → α → List ε) (genOk : Nat → α → Bool)
    (toProcessFiles : List α) (initCompleted : Bool) : StrictRunResult α :=
  let acc := strictLoop parseErrs genOk 0 toProcessFiles ⟨[], [], [], [], []⟩
  let afterLog := if hasLogger ∧ ¬acc.lastFailed.isEmpty then false else initCompleted
  ⟨mergeCompleted afterLog acc.genResults, acc.parsedFiles, acc.remaining, acc.batches,
    acc.genResults⟩

/-- Events of one strict-engine iteration, in the order imposed by the
barriers. -/
inductive StrictEvent (α : Type) where
  | preParseRun (f : α)
  | joinWorkers
  | appendDefines (f : α)
  | recordParsed (f : α)
  | submitParse (f : α)
  | parseRun (f : α)
  | truncateArtifact (f : α)
  | submitGen (f : α)
  | genRun (f : α)
deriving DecidableEq

/-- The barrier-ordered event trace of one strict-engine iteration
(CodeGenManager.inl:44-190) for a given batch: pre-parse task runs, a
barrier, the driver-side appendDefines for files with pending macros and
the parse submissions (each preceded by the `parsedFiles` push at line
124, all while the pool is paused), a barrier releasing the parse runs,
a barrier, then for each file that did not fail the artifact truncation
and generation submission (pool paused again), and finally the
generation runs and the closing barrier.  `macros f` is the pending
macro set that pre-parsing filled for `f`, `parseErrs f` the error list
of its parse. -/
def strictIterationTrace {α ε : Type} [DecidableEq α] (macros : α → List (List Char))
    (parseErrs : α → List ε) (batch : List α) : List (StrictEvent α) :=
  (batch.map .preParseRun) ++ [.joinWorkers]
    ++ ((batch.filter (fun f => !(macros f).isEmpty)).map .appendDefines)
    ++ (batch.flatMap (fun f => [.recordParsed f, .submitParse f]))
    ++ [.joinWorkers]
    ++ (batch.map .parseRun)
    ++ [.joinWorkers]
    ++ ((genFilesOf parseErrs batch).flatMap (fun f => [.truncateArtifact f, .submitGen f]))
    ++ ((genFilesOf parseErrs batch).map .genRun)
    ++ [.joinWorkers]

/-- Kinds of tasks the engines submit to the thread pool. -/
inductive TaskKind where
  | preParseTask
  | parseTask
  | genTask
deriving DecidableEq

/-- A task submission: its kind, file, iteration, and the dependency
list passed to `submitTask`, with dependencies referenced by kind,
iteration and file. -/
structure SubmittedTask (α : Type) where
  kind : TaskKind
  file : α
  iteration : Nat
  deps : List (TaskKind × Nat × α)
deriving DecidableEq

/-- The tasks submitted by `processFilesIgnoreErrors`
(CodeGenManager.inl:226-272): for each iteration `i` of
`[0, iterationCount)` and each file, one parse task with no
dependencies (line 268) and one generation task depending on exactly
that parse task (line 271); this engine submits no pre-parse task and
consults no outcome when scheduling. -/
def lenientSubmissions {α : Type} (toProcessFiles : List α) (iterationCount : Nat) :
    List (SubmittedTask α) :=
  (List.range iterationCount).flatMap (fun i =>
    toProcessFiles.flatMap (fun f =>
      [⟨.parseTask, f, i, []⟩, ⟨.genTask, f, i, [(.parseTask, i, f)]⟩]))

/-- Events of the lenient engine, tagged with their iteration. -/
inductive LenientEvent (α : Type) where
  | recordParsed (i : Nat) (f : α)
  | submitParse (i : Nat) (f : α)
  | submitGen (i : Nat) (f : α)
  | parseRun (i : Nat) (f : α)
  | genRun (i : Nat) (f : α)
  | joinWorkers (i : Nat)
deriving DecidableEq

/-- The iteration a lenient event belongs to. -/
def LenientEvent.iteration {α : Type} : LenientEvent α → Nat
  | .recordParsed i _ => i
  | .submitParse i _ => i
  | .submitGen i _ => i
  | .parseRun i _ => i
  | .genRun i _ => i
  | .joinWorkers i => i

/-- One lenient iteration (CodeGenManager.inl:226-278): while the pool
is paused, for every file the `parsedFiles` push (line 264) and the two
submissions; the pool is then released and the tasks of this iteration
run (each generation after its own parse); the iteration closes with the
`joinWorkers` barrier (line 277). -/
def lenientIterationEvents {α : Type} (toProcessFiles : List α) (i : Nat) :
    List (LenientEvent α) :=
  (toProcessFiles.flatMap (fun f => [.recordParsed i f, .submitParse i f, .submitGen i f]))
    ++ (toProcessFiles.flatMap (fun f => [.parseRun i f, .genRun i f]))
    ++ [.joinWorkers i]

/-- The barrier-ordered event trace of the whole lenient engine: the
iteration blocks in order. -/
def lenientTrace {α : Type} (toProcessFiles : List α) (iterationCount : Nat) :
    List (LenientEvent α) :=
  (List.range iterationCount).flatMap (lenientIterationEvents toProcessFiles)

/-- The completion flags merged after the lenient loop
(CodeGenManager.inl:280-284): one generation result per iteration and
file; `generateCode` runs only when the parse result carries no errors
(line 255), otherwise the task returns the default-constructed
`CodeGenResult`, whose `completed` value `defaultCompleted` is modelled
from the spec (the header defining `CodeGenResult` is not under
src/). -/
def lenientGenResults {α ε : Type} (parseErrs : Nat → α → List ε) (genOk : Nat → α → Bool)
    (defaultCompleted : Bool) (toProcessFiles : List α) (iterationCount : Nat) : List Bool :=
  (List.range iterationCount).flatMap (fun i => toProcessFiles.map (fun f =>
    if (parseErrs i f).isEmpty then genOk i f else defaultCompleted))

theorem strFind_eq_none {c : Char} {l : List Char} : strFind c l = none ↔ c ∉ l := by
  induction l with
  | nil => simp [strFind]
  | cons x xs ih =>
    by_cases hx : x = c
    · simp [strFind, hx]
    · simp [strFind, hx, ih]
      intro h
      exact fun he => hx he.symm

/-- A middle segment exists between `L` and `R` inside `candidate`
exactly when `L` is a prefix, `R` is a suffix, and the two do not
overlap.  Pure string half of the round-trip law. -/
theorem append_middle_iff (L R c : List Char) :
    (∃ m : List Char, L ++ m ++ R = c) ↔
      (L <+: c ∧ R <:+ c ∧ L.length + R.length ≤ c.length) := by
  constructor
  · rintro ⟨m, rfl⟩
    refine ⟨⟨m ++ R, by simp⟩, ⟨L ++ m, by simp⟩, ?_⟩
    simp only [List.append_assoc, List.length_append]
    omega
  · rintro ⟨⟨t, ht⟩, ⟨s, hs⟩, hlen⟩
    have hsl : s.length = c.length - R.length := by
      have := congrArg List.length hs
      simp at this
      omega
    have hLs : L <+: s := by
      refine List.prefix_of_prefix_length_le ⟨t, ht⟩ ⟨R, hs⟩ ?_
      omega
    obtain ⟨m, hm⟩ := hLs
    exact ⟨m, by rw [← hs, ← hm]⟩

theorem strFind_lt_length {c : Char} {l : List Char} {i : Nat}
    (h : strFind c l = some i) : i < l.length := by
  induction l generalizing i with
  | nil => simp [strFind] at h
  | cons x xs ih =>
    by_cases hx : x = c
    · simp only [strFind, hx, if_true, Option.some.injEq] at h
      simp only [List.length_cons]
      omega
    · simp only [strFind, hx, if_false, Option.map_eq_some'] at h
      obtain ⟨j, hj, rfl⟩ := h
      have := ih hj
      simp only [List.length_cons]
      omega

theorem strFind_eq_zero_iff {c : Char} {l : List Char} :
    strFind c l = some 0 ↔ l.head? = some c := by
  cases l with
  | nil => simp [strFind]
  | cons x xs =>
    by_cases hx : x = c
    · simp [strFind, hx]
    · simp only [strFind, hx, if_false, Option.map_eq_some', List.head?_cons,
        Option.some.injEq]
      constructor
      · rintro ⟨j, _, hj⟩
        omega
      · intro h
        exact h.elim


theorem strFind_isSome_of_mem {c : Char} {l : List Char} (h : c ∈ l) :
    ∃ i, strFind c l = some i := by
  cases hf : strFind c l with
  | none => exact absurd (strFind_eq_none.mp hf) (by simp [h])
  | some i => exact ⟨i, rfl⟩

/-- When the pattern holds a `#`, the split is the text before the
first `#` together with the text after the last `#` (the two guards of
the source are redundant in this case). -/
theorem splitMacroPattern_eq_of_find {p : List Char} {i j : Nat}
    (hi : strFind '#' p = some i) (hj : strFind '#' p.reverse = some j) :
    splitMacroPattern p = (p.take i, p.drop (p.length - 1 - j + 1)) := by
  have hilt : i < p.length := strFind_lt_length hi
  have hjlt : j < p.length := by simpa using strFind_lt_length hj
  have hrpos : p.length - 1 - j ≠ p.length := by omega
  simp only [splitMacroPattern, hi, strRFind, hj, Option.map_some', List.length_reverse,
    ne_eq, ite_not]
  by_cases hz : i = 0
  · subst hz
    simp [hrpos]
  · simp [hz, hrpos]

/-- Both halves of the split are empty exactly when the pattern has no
`#` at all, or starts with `#` and ends with `#` (no text outside the
placeholder). -/
theorem splitMacroPattern_eq_nil_iff {p : List Char} :
    splitMacroPattern p = ([], []) ↔
      ('#' ∉ p ∨ (p.head? = some '#' ∧ p.getLast? = some '#')) := by
  by_cases hmem : '#' ∈ p
  · obtain ⟨i, hi⟩ := strFind_isSome_of_mem hmem
    have hmemr : '#' ∈ p.reverse := by simpa using hmem
    obtain ⟨j, hj⟩ := strFind_isSome_of_mem hmemr
    have hilt : i < p.length := strFind_lt_length hi
    have hjlt : j < p.length := by simpa using strFind_lt_length hj
    have hne : p ≠ [] := by
      rintro rfl
      simp at hmem
    rw [splitMacroPattern_eq_of_find hi hj, Prod.mk.injEq]
    constructor
    · rintro ⟨h1, h2⟩
      refine Or.inr ⟨?_, ?_⟩
      · have hz : i = 0 := by
          rcases List.take_eq_nil_iff.mp h1 with h | h
          · exact h
          · exact absurd h hne
        exact strFind_eq_zero_iff.mp (hz ▸ hi)
      · have hdz : p.length ≤ p.length - 1 - j + 1 := List.drop_eq_nil_iff.mp h2
        have hz : j = 0 := by omega
        have := strFind_eq_zero_iff.mp (hz ▸ hj)
        rwa [List.head?_reverse] at this
    · rintro (h | ⟨h1, h2⟩)
      · exact absurd hmem h
      · have hz : i = 0 := by
          have h0 := strFind_eq_zero_iff.mpr h1
          rw [hi] at h0
          exact Option.some.inj h0
        have hzj : j = 0 := by
          have h0 := strFind_eq_zero_iff.mpr (show p.reverse.head? = some '#' by
            rwa [List.head?_reverse])
          rw [hj] at h0
          exact Option.some.inj h0
        subst hz
        subst hzj
        refine ⟨by simp, List.drop_eq_nil_iff.mpr (by omega)⟩
  · constructor
    · intro _
      exact Or.inl hmem
    · intro _
      have h0 : strFind '#' p = none := strFind_eq_none.mpr hmem
      simp [splitMacroPattern, h0]

/-- C8: once a pattern containing the `#…#` placeholder is split into
`(L, R)`, a candidate string factors as `L ++ IDENT ++ R` for some
identifier exactly when `L` is a prefix of the candidate and `R` is a
suffix of the candidate at non-overlapping positions. -/
theorem splitMacroPattern_roundtrip (pattern : List Char) (hp : '#' ∈ pattern)
    (candidate : List Char) :
    (∃ ident : List Char,
        (splitMacroPattern pattern).1 ++ ident ++ (splitMacroPattern pattern).2 = candidate) ↔
      ((splitMacroPattern pattern).1 <+: candidate ∧
        (splitMacroPattern pattern).2 <:+ candidate ∧
        (splitMacroPattern pattern).1.length + (splitMacroPattern pattern).2.length
          ≤ candidate.length) :=
  append_middle_iff _ _ _

/-- Witness for C8 at the pattern A#C#B and the candidate AxB. -/
theorem splitMacroPattern_roundtrip_witness :
    ∃ ident : List Char,
      (splitMacroPattern ("A#C#B".data)).1 ++ ident ++ (splitMacroPattern ("A#C#B".data)).2
        = ("AxB".data) :=
  (splitMacroPattern_roundtrip ("A#C#B".data) (by decide) ("AxB".data)).mpr
    (by refine ⟨?_, ?_, ?_⟩ <;> decide)

theorem extractedTypeName_exact (X : List Char) :
    extractedTypeName (unknownTypeNameText ++ X ++ [qchar]) = X := by
  unfold extractedTypeName
  rw [List.append_assoc, List.drop_left]
  have hlen : (unknownTypeNameText ++ (X ++ [qchar])).length - 1 - unknownTypeNameText.length
      = X.length := by
    simp only [List.length_append, List.length_cons, List.length_nil]
    omega
  rw [hlen, List.take_left]

/-- C3 counterexample: a diagnostic whose spelling merely contains
unknown type name MYGEN (after other text), located in the parsed file,
with the file footer macro name equal to MYGEN, still produces an error
entry and adds nothing to the pending-macro set. -/
theorem getErrors_containment_cex :
    ((unknownTypeNameText ++ ("MYGEN".data) ++ [qchar]) <:+: containmentCexDiag.spelling)
    ∧ containmentCexDiag.file = ("F.h".data)
    ∧ (getErrors ("MYGEN".data) ("A#C#B".data) ("A#C#B".data) ("F.h".data)
        [containmentCexDiag] []).1 ≠ []
    ∧ (getErrors ("MYGEN".data) ("A#C#B".data) ("A#C#B".data) ("F.h".data)
        [containmentCexDiag] []).2 = [] := by
  decide

/-- C3 (amended): a diagnostic whose spelling is exactly
unknown type name 'X' and whose expansion location is the parsed file is
classified as expected exactly when X equals the file footer macro name
or X contains both splits of the class footer macro pattern as
substrings; an expected diagnostic adds X to the pending-macro set and
produces no error entry, and otherwise exactly one error entry of the
form "spelling (file, line L, column C)" is produced. -/
theorem processDiagnostic_classification
    (fileFooterName lcf rcf toParseFile : List Char) (d : Diagnostic)
    (errs macros : List (List Char)) (X : List Char)
    (hs : d.spelling = unknownTypeNameText ++ X ++ [qchar]) (hf : d.file = toParseFile) :
    (processDiagnostic fileFooterName lcf rcf toParseFile (errs, macros) d
        = (errs, insertStr X macros)
      ∧ (X = fileFooterName ∨ (lcf <:+: X ∧ rcf <:+: X)))
    ∨ (processDiagnostic fileFooterName lcf rcf toParseFile (errs, macros) d
        = (errs ++ [errorEntry d], macros)
      ∧ ¬(X = fileFooterName ∨ (lcf <:+: X ∧ rcf <:+: X))) := by
  have hinf : unknownTypeNameText <:+: d.spelling := by
    rw [hs, List.append_assoc]
    exact ⟨[], X ++ [qchar], by simp⟩
  have hex : extractedTypeName d.spelling = X := by
    rw [hs]
    exact extractedTypeName_exact X
  by_cases h1 : X = fileFooterName
  · left
    refine ⟨?_, Or.inl h1⟩
    simp only [processDiagnostic, hinf, hf, and_self, if_true, hex, h1, if_pos rfl]
  · by_cases h2 : lcf <:+: X ∧ rcf <:+: X
    · left
      refine ⟨?_, Or.inr h2⟩
      simp only [processDiagnostic, hinf, hf, and_self, if_true, hex, h1, if_false, h2]
    · right
      refine ⟨?_, by tauto⟩
      simp only [processDiagnostic, hinf, hf, and_self, if_true, hex, h1, if_false, h2]

/-- Witness for the amended C3 at a concrete expected diagnostic. -/
theorem processDiagnostic_classification_witness :
    (processDiagnostic ("MYGEN".data) ("A".data) ("B".data) ("F.h".data) ([], []) exactFormDiag
        = ([], insertStr ("MYGEN".data) [])
      ∧ (("MYGEN".data) = ("MYGEN".data)
          ∨ (("A".data) <:+: ("MYGEN".data) ∧ ("B".data) <:+: ("MYGEN".data))))
    ∨ (processDiagnostic ("MYGEN".data) ("A".data) ("B".data) ("F.h".data) ([], []) exactFormDiag
        = ([] ++ [errorEntry exactFormDiag], [])
      ∧ ¬(("MYGEN".data) = ("MYGEN".data)
          ∨ (("A".data) <:+: ("MYGEN".data) ∧ ("B".data) <:+: ("MYGEN".data)))) :=
  processDiagnostic_classification ("MYGEN".data) ("A".data) ("B".data) ("F.h".data)
    exactFormDiag [] [] ("MYGEN".data) rfl rfl

/-- C4 counterexample: a diagnostic located in a different file than the
parsed one is promoted to an error entry by getErrors. -/
theorem getErrors_locality_cex :
    otherFileDiag.file ≠ ("F.h".data)
    ∧ (getErrors ("G".data) ("A#C#B".data) ("A#C#B".data) ("F.h".data) [otherFileDiag] []).1
        = [errorEntry otherFileDiag] := by
  decide

/-- C4 (amended): a diagnostic whose expansion location is a file other
than the parsed one is never suppressed: it always contributes exactly
one error entry and never touches the pending-macro set (only the
expected-macro suppression is restricted to the parsed file). -/
theorem processDiagnostic_other_file
    (fileFooterName lcf rcf toParseFile : List Char) (d : Diagnostic)
    (errs macros : List (List Char)) (hf : d.file ≠ toParseFile) :
    processDiagnostic fileFooterName lcf rcf toParseFile (errs, macros) d
      = (errs ++ [errorEntry d], macros) := by
  simp only [processDiagnostic, hf, and_false, if_false]

/-- Witness for the amended C4 at a concrete diagnostic. -/
theorem processDiagnostic_other_file_witness :
    processDiagnostic ("G".data) ("A".data) ("B".data) ("F.h".data) ([], []) otherFileDiag
      = ([errorEntry otherFileDiag], []) :=
  processDiagnostic_other_file ("G".data) ("A".data) ("B".data) ("F.h".data) otherFileDiag
    [] [] (by decide)

theorem errorEntry_getLast (d : Diagnostic) : (errorEntry d).getLast? = some ')' :=
  List.getLast?_concat _

theorem processDiagnostic_errors_cases
    (fileFooterName lcf rcf toParseFile : List Char)
    (acc : List (List Char) × List (List Char)) (d : Diagnostic) :
    ∀ e ∈ (processDiagnostic fileFooterName lcf rcf toParseFile acc d).1,
      e ∈ acc.1 ∨ e = errorEntry d := by
  intro e he
  by_cases h1 : unknownTypeNameText <:+: d.spelling ∧ d.file = toParseFile
  · simp only [processDiagnostic, if_pos h1] at he
    by_cases h2 : extractedTypeName d.spelling = fileFooterName
    · simp only [h2, if_pos rfl] at he
      exact Or.inl he
    · simp only [h2, if_false] at he
      by_cases h3 : lcf <:+: extractedTypeName d.spelling ∧ rcf <:+: extractedTypeName d.spelling
      · simp only [h3, if_true] at he
        exact Or.inl he
      · simp only [h3, if_false] at he
        rcases List.mem_append.mp he with h | h
        · exact Or.inl h
        · exact Or.inr (List.mem_singleton.mp h)
  · simp only [processDiagnostic, if_neg h1] at he
    rcases List.mem_append.mp he with h | h
    · exact Or.inl h
    · exact Or.inr (List.mem_singleton.mp h)

theorem foldl_processDiagnostic_getLast
    (fileFooterName lcf rcf toParseFile : List Char) (diags : List Diagnostic) :
    ∀ acc : List (List Char) × List (List Char),
      (∀ e ∈ acc.1, e.getLast? = some ')') →
      ∀ e ∈ (diags.foldl (processDiagnostic fileFooterName lcf rcf toParseFile) acc).1,
        e.getLast? = some ')' := by
  induction diags with
  | nil =>
    intro acc h e he
    exact h e he
  | cons d ds ih =>
    intro acc h e he
    refine ih _ ?_ e he
    intro x hx
    rcases processDiagnostic_errors_cases fileFooterName lcf rcf toParseFile acc d x hx with
      hm | hm
    · exact h x hm
    · rw [hm]
      exact errorEntry_getLast d

/-- C6 (amended): getErrors fails the whole file with the single error
"failed to split class footer macro pattern" exactly when
splitMacroPattern maps the class footer macro pattern to two empty
strings, which happens exactly when the pattern has no placeholder
character at all or carries no text outside the placeholder (it begins
with the first and ends with the last Number-sign); a pattern containing
the placeholder can therefore still fail. -/
theorem getErrors_split_failure
    (fileFooterName classFooterPattern headerNamePattern toParseFile : List Char)
    (diags : List Diagnostic) (notFoundNames : List (List Char)) :
    (getErrors fileFooterName classFooterPattern headerNamePattern toParseFile diags
          notFoundNames
        = ([classFooterSplitError], notFoundNames)
      ↔ splitMacroPattern classFooterPattern = ([], []))
    ∧ (splitMacroPattern classFooterPattern = ([], []) ↔
        ('#' ∉ classFooterPattern ∨
          (classFooterPattern.head? = some '#' ∧ classFooterPattern.getLast? = some '#'))) := by
  refine ⟨⟨?_, ?_⟩, splitMacroPattern_eq_nil_iff⟩
  · intro hEq
    by_contra hSplit
    have hcond : ¬((splitMacroPattern classFooterPattern).1 = []
        ∧ (splitMacroPattern classFooterPattern).2 = []) := by
      rintro ⟨ha, hb⟩
      exact hSplit (Prod.ext_iff.mpr ⟨ha, hb⟩)
    by_cases hc2 : (splitMacroPattern headerNamePattern).1 = []
        ∧ (splitMacroPattern headerNamePattern).2 = []
    · simp only [getErrors, if_neg hcond, if_pos hc2] at hEq
      have h1 := congrArg Prod.fst hEq
      simp only at h1
      exact absurd (List.head_eq_of_cons_eq h1) (by decide)
    · simp only [getErrors, if_neg hcond, if_neg hc2] at hEq
      have hmem : classFooterSplitError ∈
          (diags.foldl
            (processDiagnostic fileFooterName (splitMacroPattern classFooterPattern).1
              (splitMacroPattern classFooterPattern).2 toParseFile)
            ([], notFoundNames)).1 := by
        rw [hEq]
        exact List.mem_singleton.mpr rfl
      have := foldl_processDiagnostic_getLast fileFooterName
        (splitMacroPattern classFooterPattern).1 (splitMacroPattern classFooterPattern).2
        toParseFile diags ([], notFoundNames) (by intro e he; simp at he) classFooterSplitError
        hmem
      exact absurd this (by decide)
  · intro hSplit
    have ha := congrArg Prod.fst hSplit
    have hb := congrArg Prod.snd hSplit
    simp only at ha hb
    simp only [getErrors, ha, hb, and_self, if_true]

/-- Witness for the amended C6 at a concrete pattern without a
placeholder delimiter text. -/
theorem getErrors_split_failure_witness :
    getErrors ("G".data) ("NOSHARP".data) ("A#C#B".data) ("F.h".data) [] []
      = ([classFooterSplitError], []) :=
  ((getErrors_split_failure ("G".data) ("NOSHARP".data) ("A#C#B".data) ("F.h".data)
      [] []).1).mpr (by decide)

/-- C6 counterexample: the pattern #CLASS# contains the placeholder,
yet getErrors fails the file with the split error. -/
theorem getErrors_split_cex :
    ('#' ∈ ("#CLASS#".data))
    ∧ (getErrors ("G".data) ("#CLASS#".data) ("A#C#B".data) ("F.h".data) [] []).1
        = [classFooterSplitError] := by
  decide

/-- C9: prepareForParsing returns false and leaves the macro-name set
unmodified when the path does not exist or is a directory; returns false
after logging when the translation unit cannot be created; and when the
translation unit is created it clears the set, fills it with exactly the
pending names collected by getErrors and returns true even when genuine
errors are present (the error list of getErrors is discarded). -/
theorem prepareForParsing_spec (env : ParseEnv)
    (fileFooterName classFooterPattern headerNamePattern toParseFile : List Char)
    (notFoundNames : List (List Char)) :
    ((env.pathExists = false ∨ env.isDirectory = true) →
      prepareForParsing env fileFooterName classFooterPattern headerNamePattern toParseFile
          notFoundNames
        = (false, notFoundNames, []))
    ∧ (env.pathExists = true → env.isDirectory = false → env.translationUnit = none →
      prepareForParsing env fileFooterName classFooterPattern headerNamePattern toParseFile
          notFoundNames
        = (false, notFoundNames, [tuFailureLog toParseFile]))
    ∧ (∀ diags : List Diagnostic, env.pathExists = true → env.isDirectory = false →
      env.translationUnit = some diags →
      prepareForParsing env fileFooterName classFooterPattern headerNamePattern toParseFile
          notFoundNames
        = (true,
            (getErrors fileFooterName classFooterPattern headerNamePattern toParseFile diags
              []).2,
            [])) := by
  refine ⟨?_, ?_, ?_⟩
  · rintro (h | h) <;> simp [prepareForParsing, h]
  · intro h1 h2 h3
    simp [prepareForParsing, h1, h2, h3]
  · intro diags h1 h2 h3
    simp [prepareForParsing, h1, h2, h3]

/-- Witness for C9: with an existing, non-directory file whose
translation unit carries one genuine diagnostic and one expected one,
prepareForParsing returns true and the set holds exactly the pending
macro name. -/
theorem prepareForParsing_spec_witness :
    prepareForParsing ⟨true, false, some [otherFileDiag, exactFormDiag]⟩ ("MYGEN".data)
        ("A#C#B".data) ("A#C#B".data) ("F.h".data) [("stale".data)]
      = (true,
          (getErrors ("MYGEN".data) ("A#C#B".data) ("A#C#B".data) ("F.h".data)
            [otherFileDiag, exactFormDiag] []).2,
          []) :=
  (prepareForParsing_spec ⟨true, false, some [otherFileDiag, exactFormDiag]⟩ ("MYGEN".data)
      ("A#C#B".data) ("A#C#B".data) ("F.h".data) [("stale".data)]).2.2
    [otherFileDiag, exactFormDiag] rfl rfl rfl

theorem count_flatMap {γ δ : Type} [DecidableEq δ] (x : δ) (f : γ → List δ) (l : List γ) :
    (l.flatMap f).count x = (l.map (fun a => (f a).count x)).sum := by
  rw [List.flatMap_def, List.count_flatten, List.map_map]
  rfl

theorem sum_map_ite_one {γ : Type} [DecidableEq γ] (x : γ) (l : List γ) :
    (l.map (fun a => if a = x then 1 else 0)).sum = l.count x := by
  induction l with
  | nil => simp
  | cons a as ih =>
    by_cases h : a = x <;> simp [List.count_cons, h, ih, Nat.add_comm]

theorem mergeCompleted_eq (b : Bool) (l : List Bool) :
    mergeCompleted b l = (b && l.all id) := by
  unfold mergeCompleted
  induction l generalizing b with
  | nil => simp
  | cons x xs ih => simp [List.foldl_cons, ih, Bool.and_assoc]

theorem mem_retryOf {α ε : Type} {parseErrs : α → List ε} {batch : List α} {f : α} :
    f ∈ retryOf parseErrs batch ↔ f ∈ batch ∧ parseErrs f ≠ [] := by
  simp [retryOf, List.mem_filter, List.isEmpty_iff]

theorem retryOf_eq_nil_iff {α ε : Type} {parseErrs : α → List ε} {batch : List α} :
    retryOf parseErrs batch = [] ↔ failedPairsOf parseErrs batch = [] := by
  simp [retryOf, failedPairsOf, List.filter_eq_nil_iff, List.flatMap_eq_nil_iff,
    List.isEmpty_iff]

theorem genFilesOf_eq {α ε : Type} [DecidableEq α] (parseErrs : α → List ε) (batch : List α) :
    genFilesOf parseErrs batch = batch.filter (fun f => (parseErrs f).isEmpty) := by
  refine List.filter_congr ?_
  intro f hf
  by_cases h : parseErrs f = [] <;> simp [mem_retryOf, hf, h, List.isEmpty_iff]

/-- Closed form of the strict loop: its state fields in terms of the
ghost round list. -/
theorem strictLoop_spec {α ε : Type} [DecidableEq α] (parseErrs : Nat → α → List ε)
    (genOk : Nat → α → Bool) :
    ∀ (n i : Nat) (rem : List α) (acc : StrictAcc α ε), rem.length ≤ n →
      strictLoop parseErrs genOk i rem acc =
        { parsedFiles := acc.parsedFiles ++ (strictRounds parseErrs i rem).flatMap
            (fun r => r.2)
          genResults := acc.genResults ++ (strictRounds parseErrs i rem).flatMap
            (fun r => genResultsOf (parseErrs r.1) (genOk r.1) r.2)
          batches := acc.batches ++ (strictRounds parseErrs i rem).map (fun r => r.2)
          lastFailed := failedPairsOf (parseErrs (finalRound parseErrs i rem).1)
            (finalRound parseErrs i rem).2
          remaining := retryOf (parseErrs (finalRound parseErrs i rem).1)
            (finalRound parseErrs i rem).2 } := by
  intro n
  induction n with
  | zero =>
    intro i rem acc h
    have hrem : rem = [] := List.eq_nil_of_length_eq_zero (Nat.le_zero.mp h)
    subst hrem
    rw [strictLoop.eq_def, strictRounds.eq_def, finalRound.eq_def]
    simp [retryOf, strictStep]
  | succ n ih =>
    intro i rem acc h
    rw [strictLoop.eq_def, strictRounds.eq_def, finalRound.eq_def]
    by_cases hc : ¬(retryOf (parseErrs i) rem).isEmpty
        ∧ (retryOf (parseErrs i) rem).length ≠ rem.length
    · rw [dif_pos hc, if_pos hc, if_pos hc]
      have hlt : (retryOf (parseErrs i) rem).length < rem.length :=
        Nat.lt_of_le_of_ne (List.length_filter_le _ _) hc.2
      rw [ih (i + 1) (retryOf (parseErrs i) rem) (strictStep parseErrs genOk i rem acc)
        (by omega)]
      simp only [strictStep, StrictAcc.mk.injEq, List.flatMap_cons, List.map_cons]
      refine ⟨?_, ?_, ?_, trivial, trivial⟩ <;> simp [List.append_assoc]
    · rw [dif_neg hc, if_neg hc, if_neg hc]
      simp [strictStep]

theorem strictRounds_length_le {α ε : Type} (parseErrs : Nat → α → List ε) :
    ∀ (n i : Nat) (rem : List α), rem.length ≤ n →
      (strictRounds parseErrs i rem).length ≤ rem.length + 1 := by
  intro n
  induction n with
  | zero =>
    intro i rem h
    have hrem : rem = [] := List.eq_nil_of_length_eq_zero (Nat.le_zero.mp h)
    subst hrem
    rw [strictRounds.eq_def]
    simp [retryOf]
  | succ n ih =>
    intro i rem h
    rw [strictRounds.eq_def]
    by_cases hc : ¬(retryOf (parseErrs i) rem).isEmpty
        ∧ (retryOf (parseErrs i) rem).length ≠ rem.length
    · rw [if_pos hc]
      have hlt : (retryOf (parseErrs i) rem).length < rem.length :=
        Nat.lt_of_le_of_ne (List.length_filter_le _ _) hc.2
      have := ih (i + 1) (retryOf (parseErrs i) rem) (by omega)
      simp only [List.length_cons]
      omega
    · rw [if_neg hc]
      simp

theorem strictRounds_nodup {α ε : Type} (parseErrs : Nat → α → List ε) :
    ∀ (n i : Nat) (rem : List α), rem.length ≤ n → rem.Nodup →
      ∀ r ∈ strictRounds parseErrs i rem, r.2.Nodup := by
  intro n
  induction n with
  | zero =>
    intro i rem h hnd r hr
    have hrem : rem = [] := List.eq_nil_of_length_eq_zero (Nat.le_zero.mp h)
    subst hrem
    rw [strictRounds.eq_def] at hr
    simp [retryOf] at hr
    simp [hr]
  | succ n ih =>
    intro i rem h hnd r hr
    rw [strictRounds.eq_def] at hr
    by_cases hc : ¬(retryOf (parseErrs i) rem).isEmpty
        ∧ (retryOf (parseErrs i) rem).length ≠ rem.length
    · rw [if_pos hc] at hr
      rcases List.mem_cons.mp hr with hr | hr
      · rw [hr]
        exact hnd
      · have hlt : (retryOf (parseErrs i) rem).length < rem.length :=
          Nat.lt_of_le_of_ne (List.length_filter_le _ _) hc.2
        exact ih (i + 1) (retryOf (parseErrs i) rem) (by omega) (hnd.filter _) r hr
    · rw [if_neg hc] at hr
      rcases List.mem_singleton.mp hr with rfl
      exact hnd

theorem index_lt_of_not_mem_right {γ : Type} {u v : List γ} {e : γ} {i : Nat}
    (h : (u ++ v)[i]? = some e) (hv : e ∉ v) : i < u.length := by
  by_contra hle
  push_neg at hle
  rw [List.getElem?_append_right hle] at h
  exact hv (List.getElem?_mem h)

theorem length_le_index_of_not_mem_left {γ : Type} {u v : List γ} {e : γ} {j : Nat}
    (h : (u ++ v)[j]? = some e) (hu : e ∉ u) : u.length ≤ j := by
  by_contra hlt
  push_neg at hlt
  rw [List.getElem?_append_left hlt] at h
  exact hu (List.getElem?_mem h)

/-- A parse oracle that fails every file in every iteration with one
error. -/
def alwaysFailErrs : Nat → Nat → List (List Char) := fun _ _ => [("parse error".data)]

/-- C1: the code contradicts the claim when the manager has no logger.
The `completed = false` assignment for files that remained in the retry
set sits inside the `if (logger != nullptr)` block
(CodeGenManager.inl:194-199), so a null-logger run whose single file
fails every parse returns `completed = true` although the file remained
in `filesLeftToProcess`; with a logger attached the same run returns
`completed = false`. -/
theorem strict_nullLogger_completed_cex :
    (processFilesFailOnErrors false alwaysFailErrs (fun _ _ => true) [0] true).completed = true
    ∧ (processFilesFailOnErrors false alwaysFailErrs (fun _ _ => true) [0] true).remaining
        = [0]
    ∧ (processFilesFailOnErrors true alwaysFailErrs (fun _ _ => true) [0] true).completed
        = false := by
  have hloop : strictLoop alwaysFailErrs (fun _ _ => true) 0 [0] ⟨[], [], [], [], []⟩
      = ⟨[0], [], [[0]], [(0, ("parse error".data))], [0]⟩ := by
    rw [strictLoop.eq_def]
    decide
  refine ⟨?_, ?_, ?_⟩ <;> simp [processFilesFailOnErrors, hloop, mergeCompleted]

/-- Companion to C1: with a logger attached, the strict engine's final
completed flag is true exactly when no file remained in the retry set
and no generation task reported failure. -/
theorem strict_completed_iff_logger {α ε : Type} [DecidableEq α]
    (parseErrs : Nat → α → List ε) (genOk : Nat → α → Bool) (files : List α) :
    (processFilesFailOnErrors true parseErrs genOk files true).completed = true ↔
      ((processFilesFailOnErrors true parseErrs genOk files true).remaining = []
        ∧ ∀ b ∈ (processFilesFailOnErrors true parseErrs genOk files true).genResults,
            b = true) := by
  have hspec := strictLoop_spec parseErrs genOk files.length 0 files ⟨[], [], [], [], []⟩
    (le_refl _)
  by_cases hR : retryOf (parseErrs (finalRound parseErrs 0 files).1)
      (finalRound parseErrs 0 files).2 = []
  · have hL : failedPairsOf (parseErrs (finalRound parseErrs 0 files).1)
        (finalRound parseErrs 0 files).2 = [] := retryOf_eq_nil_iff.mp hR
    simp [processFilesFailOnErrors, hspec, hR, hL, mergeCompleted_eq, List.all_eq_true]
  · have hL : failedPairsOf (parseErrs (finalRound parseErrs 0 files).1)
        (finalRound parseErrs 0 files).2 ≠ [] := fun h => hR (retryOf_eq_nil_iff.mpr h)
    simp [processFilesFailOnErrors, hspec, hR, hL, mergeCompleted_eq, List.isEmpty_iff]

/-- Witness for the amended C1 at a concrete run. -/
theorem strict_completed_iff_logger_witness :
    (processFilesFailOnErrors true alwaysFailErrs (fun _ _ => true) [0] true).completed
        = true ↔
      ((processFilesFailOnErrors true alwaysFailErrs (fun _ _ => true) [0] true).remaining
          = []
        ∧ ∀ b ∈ (processFilesFailOnErrors true alwaysFailErrs (fun _ _ => true) [0]
            true).genResults, b = true) :=
  strict_completed_iff_logger alwaysFailErrs (fun _ _ => true) [0]

/-- C2: the strict do-while loop re-enters only while the retry set is
non-empty and strictly smaller than the batch just processed (the retry
set is a sublist of the batch, so the source's size-difference test is
strict decrease), and the engine performs at most |files| + 1
iterations. -/
theorem strict_termination_bound {α ε : Type} [DecidableEq α] (hasLogger initCompleted : Bool)
    (parseErrs : Nat → α → List ε) (genOk : Nat → α → Bool) (files : List α) :
    (∀ (e : α → List ε) (batch : List α),
      ((¬(retryOf e batch).isEmpty ∧ (retryOf e batch).length ≠ batch.length) ↔
        (¬(retryOf e batch).isEmpty ∧ (retryOf e batch).length < batch.length)))
    ∧ (processFilesFailOnErrors hasLogger parseErrs genOk files initCompleted).batches.length
        ≤ files.length + 1 := by
  constructor
  · intro e batch
    constructor
    · rintro ⟨h1, h2⟩
      exact ⟨h1, Nat.lt_of_le_of_ne (List.length_filter_le _ _) h2⟩
    · rintro ⟨h1, h2⟩
      exact ⟨h1, Nat.ne_of_lt h2⟩
  · have hspec := strictLoop_spec parseErrs genOk files.length 0 files ⟨[], [], [], [], []⟩
      (le_refl _)
    simp only [processFilesFailOnErrors, hspec, List.nil_append, List.length_map]
    exact strictRounds_length_le parseErrs files.length 0 files (le_refl _)

/-- Witness for C2 at a concrete run. -/
theorem strict_termination_bound_witness :
    (processFilesFailOnErrors true alwaysFailErrs (fun _ _ => true) [0] true).batches.length
      ≤ ([0] : List Nat).length + 1 :=
  (strict_termination_bound true true alwaysFailErrs (fun _ _ => true) [0]).2

theorem count_flatten_eq_countP {γ : Type} [DecidableEq γ] (L : List (List γ)) (f : γ)
    (h : ∀ b ∈ L, b.Nodup) : L.flatten.count f = L.countP (fun b => decide (f ∈ b)) := by
  induction L with
  | nil => simp
  | cons b bs ih =>
    simp only [List.flatten_cons, List.count_append, List.countP_cons]
    rw [ih (fun x hx => h x (List.mem_cons_of_mem b hx))]
    by_cases hm : f ∈ b
    · rw [List.count_eq_one_of_mem (h b (List.mem_cons_self b bs)) hm]
      simp [hm, Nat.add_comm]
    · rw [List.count_eq_zero.mpr hm]
      simp [hm]

/-- C10: the strict engine's parsedFiles list is the concatenation of
the per-iteration batches (the push at CodeGenManager.inl:124 happens
once per file per iteration, regardless of the parse outcome), so each
file appears exactly as many times as there are iterations that
processed it — a retried file appears once per attempted iteration; and
within one iteration every parsedFiles push happens before any parse
task of the iteration runs. -/
theorem strict_parsedFiles_per_iteration {α ε : Type} [DecidableEq α]
    (hasLogger initCompleted : Bool) (parseErrs : Nat → α → List ε)
    (genOk : Nat → α → Bool) (files : List α) :
    ((processFilesFailOnErrors hasLogger parseErrs genOk files initCompleted).parsedFiles
      = (processFilesFailOnErrors hasLogger parseErrs genOk files
          initCompleted).batches.flatten)
    ∧ (files.Nodup → ∀ f : α,
        (processFilesFailOnErrors hasLogger parseErrs genOk files
            initCompleted).parsedFiles.count f
          = (processFilesFailOnErrors hasLogger parseErrs genOk files
              initCompleted).batches.countP (fun b => decide (f ∈ b)))
    ∧ (∀ (macros : α → List (List Char)) (e : α → List ε) (batch : List α) (i j : Nat)
        (f g : α),
        (strictIterationTrace macros e batch)[i]? = some (.recordParsed f) →
        (strictIterationTrace macros e batch)[j]? = some (.parseRun g) → i < j) := by
  have hspec := strictLoop_spec parseErrs genOk files.length 0 files ⟨[], [], [], [], []⟩
    (le_refl _)
  have hflat : (processFilesFailOnErrors hasLogger parseErrs genOk files
      initCompleted).parsedFiles
      = (processFilesFailOnErrors hasLogger parseErrs genOk files
          initCompleted).batches.flatten := by
    simp [processFilesFailOnErrors, hspec, List.flatMap_def]
  refine ⟨hflat, ?_, ?_⟩
  · intro hnd f
    rw [hflat]
    refine count_flatten_eq_countP _ f ?_
    intro b hb
    simp only [processFilesFailOnErrors, hspec, List.nil_append, List.mem_map] at hb
    obtain ⟨r, hr, rfl⟩ := hb
    exact strictRounds_nodup parseErrs files.length 0 files (le_refl _) hnd r hr
  · intro macros e batch i j f g h1 h2
    have htr : strictIterationTrace macros e batch =
        ((batch.map .preParseRun) ++ [.joinWorkers]
          ++ ((batch.filter (fun x => !(macros x).isEmpty)).map .appendDefines)
          ++ (batch.flatMap (fun x => [.recordParsed x, .submitParse x]))
          ++ [.joinWorkers])
        ++ ((batch.map .parseRun) ++ [.joinWorkers]
          ++ ((genFilesOf e batch).flatMap (fun x => [.truncateArtifact x, .submitGen x]))
          ++ ((genFilesOf e batch).map .genRun) ++ [.joinWorkers]) := by
      simp [strictIterationTrace, List.append_assoc]
    rw [htr] at h1 h2
    have hi := index_lt_of_not_mem_right h1 (by simp)
    have hj := length_le_index_of_not_mem_left h2 (by simp)
    omega

/-- Witness for C10 at a concrete run and file. -/
theorem strict_parsedFiles_per_iteration_witness :
    (processFilesFailOnErrors true alwaysFailErrs (fun _ _ => true) [0]
        true).parsedFiles.count 0
      = (processFilesFailOnErrors true alwaysFailErrs (fun _ _ => true) [0]
          true).batches.countP (fun b => decide ((0 : Nat) ∈ b)) :=
  (strict_parsedFiles_per_iteration true true alwaysFailErrs (fun _ _ => true) [0]).2.1
    (by decide) 0

/-- C5: within one strict iteration the artifact truncation and the
generation submission happen for exactly the batch files whose parse
produced no errors (a failed file gets neither for that iteration), and
in the barrier-ordered trace every truncation comes after every parse
run of the iteration and before every generation run. -/
theorem strict_iteration_truncate_generate {α ε : Type} [DecidableEq α]
    (macros : α → List (List Char)) (parseErrs : α → List ε) (batch : List α) :
    (∀ f : α, StrictEvent.truncateArtifact f ∈ strictIterationTrace macros parseErrs batch ↔
        (f ∈ batch ∧ parseErrs f = []))
    ∧ (∀ f : α, StrictEvent.submitGen f ∈ strictIterationTrace macros parseErrs batch ↔
        (f ∈ batch ∧ parseErrs f = []))
    ∧ (∀ (i j : Nat) (f g : α),
        (strictIterationTrace macros parseErrs batch)[i]? = some (.parseRun f) →
        (strictIterationTrace macros parseErrs batch)[j]? = some (.truncateArtifact g) →
        i < j)
    ∧ (∀ (i j : Nat) (f g : α),
        (strictIterationTrace macros parseErrs batch)[i]? = some (.truncateArtifact f) →
        (strictIterationTrace macros parseErrs batch)[j]? = some (.genRun g) →
        i < j) := by
  refine ⟨?_, ?_, ?_, ?_⟩
  · intro f
    simp [strictIterationTrace, genFilesOf_eq, List.mem_filter, List.isEmpty_iff]
  · intro f
    simp [strictIterationTrace, genFilesOf_eq, List.mem_filter, List.isEmpty_iff]
  · intro i j f g h1 h2
    have htr : strictIterationTrace macros parseErrs batch =
        ((batch.map .preParseRun) ++ [.joinWorkers]
          ++ ((batch.filter (fun x => !(macros x).isEmpty)).map .appendDefines)
          ++ (batch.flatMap (fun x => [.recordParsed x, .submitParse x]))
          ++ [.joinWorkers] ++ (batch.map .parseRun) ++ [.joinWorkers])
        ++ (((genFilesOf parseErrs batch).flatMap
              (fun x => [.truncateArtifact x, .submitGen x]))
          ++ ((genFilesOf parseErrs batch).map .genRun) ++ [.joinWorkers]) := by
      simp [strictIterationTrace, List.append_assoc]
    rw [htr] at h1 h2
    have hi := index_lt_of_not_mem_right h1 (by simp)
    have hj := length_le_index_of_not_mem_left h2 (by simp)
    omega
  · intro i j f g h1 h2
    have htr : strictIterationTrace macros parseErrs batch =
        ((batch.map .preParseRun) ++ [.joinWorkers]
          ++ ((batch.filter (fun x => !(macros x).isEmpty)).map .appendDefines)
          ++ (batch.flatMap (fun x => [.recordParsed x, .submitParse x]))
          ++ [.joinWorkers] ++ (batch.map .parseRun) ++ [.joinWorkers]
          ++ ((genFilesOf parseErrs batch).flatMap
              (fun x => [.truncateArtifact x, .submitGen x])))
        ++ (((genFilesOf parseErrs batch).map .genRun) ++ [.joinWorkers]) := by
      simp [strictIterationTrace, List.append_assoc]
    rw [htr] at h1 h2
    have hi := index_lt_of_not_mem_right h1 (by simp)
    have hj := length_le_index_of_not_mem_left h2 (by simp)
    omega

/-- Witness for C5 at a concrete batch. -/
theorem strict_iteration_truncate_generate_witness :
    StrictEvent.truncateArtifact 0 ∈
      strictIterationTrace (fun _ => []) (fun _ => ([] : List (List Char))) [0] :=
  ((strict_iteration_truncate_generate (fun _ => []) (fun _ => ([] : List (List Char)))
      [0]).1 0).mpr (by simp)

theorem lenientSubmissions_count {α : Type} [DecidableEq α] (toProcessFiles : List α)
    (iterationCount i : Nat) (f : α) (hnd : toProcessFiles.Nodup) (hi : i < iterationCount)
    (hf : f ∈ toProcessFiles) (t : SubmittedTask α)
    (hcase : ∀ (k : Nat) (a : α),
      ([(⟨.parseTask, a, k, []⟩ : SubmittedTask α),
          ⟨.genTask, a, k, [(.parseTask, k, a)]⟩].count t)
        = if k = i ∧ a = f then 1 else 0) :
    (lenientSubmissions toProcessFiles iterationCount).count t = 1 := by
  unfold lenientSubmissions
  rw [count_flatMap]
  have hmap : (List.range iterationCount).map
        (fun k => (toProcessFiles.flatMap (fun a =>
          [(⟨.parseTask, a, k, []⟩ : SubmittedTask α),
            ⟨.genTask, a, k, [(.parseTask, k, a)]⟩])).count t)
      = (List.range iterationCount).map (fun k => if k = i then 1 else 0) := by
    refine List.map_congr_left ?_
    intro k _
    rw [count_flatMap]
    by_cases h1 : k = i
    · subst h1
      have hinner : toProcessFiles.map (fun a =>
            ([(⟨.parseTask, a, k, []⟩ : SubmittedTask α),
              ⟨.genTask, a, k, [(.parseTask, k, a)]⟩].count t))
          = toProcessFiles.map (fun a => if a = f then 1 else 0) := by
        refine List.map_congr_left ?_
        intro a _
        rw [hcase]
        simp
      rw [hinner, sum_map_ite_one, List.count_eq_one_of_mem hnd hf]
      simp
    · have hinner : toProcessFiles.map (fun a =>
            ([(⟨.parseTask, a, k, []⟩ : SubmittedTask α),
              ⟨.genTask, a, k, [(.parseTask, k, a)]⟩].count t))
          = toProcessFiles.map (fun _ => 0) := by
        refine List.map_congr_left ?_
        intro a _
        rw [hcase]
        simp [h1]
      rw [hinner]
      simp [h1]
  rw [hmap, sum_map_ite_one,
    List.count_eq_one_of_mem (List.nodup_range iterationCount) (List.mem_range.mpr hi)]

/-- C7: the lenient engine submits, for every iteration `i` below the
iteration count and every file, exactly one parse task and one
generation task whose dependency list is exactly that parse task; no
pre-parse task exists and no submission depends on another iteration;
one generation result per iteration and file is merged (iteration count
times |files| in total); and each iteration's events end with a
joinWorkers barrier and contain only that iteration's events. -/
theorem lenient_fanout {α ε : Type} [DecidableEq α] (parseErrs : Nat → α → List ε)
    (genOk : Nat → α → Bool) (defaultCompleted : Bool) (toProcessFiles : List α)
    (iterationCount : Nat) (hnd : toProcessFiles.Nodup) :
    (∀ i < iterationCount, ∀ f ∈ toProcessFiles,
        ((lenientSubmissions toProcessFiles iterationCount).count
            ⟨.parseTask, f, i, []⟩ = 1)
      ∧ ((lenientSubmissions toProcessFiles iterationCount).count
            ⟨.genTask, f, i, [(.parseTask, i, f)]⟩ = 1))
    ∧ (∀ t ∈ lenientSubmissions toProcessFiles iterationCount,
        t.kind ≠ .preParseTask
        ∧ (t.kind = .parseTask → t.deps = [])
        ∧ (t.kind = .genTask → t.deps = [(.parseTask, t.iteration, t.file)]))
    ∧ ((lenientGenResults parseErrs genOk defaultCompleted toProcessFiles
          iterationCount).length = iterationCount * toProcessFiles.length)
    ∧ (∀ i : Nat,
        ((lenientIterationEvents toProcessFiles i).getLast? = some (.joinWorkers i))
        ∧ ∀ ev ∈ lenientIterationEvents toProcessFiles i, ev.iteration = i)
    ∧ (lenientTrace toProcessFiles iterationCount
        = (List.range iterationCount).flatMap (lenientIterationEvents toProcessFiles)) := by
  refine ⟨?_, ?_, ?_, ?_, rfl⟩
  · intro i hi f hf
    constructor
    · refine lenientSubmissions_count toProcessFiles iterationCount i f hnd hi hf _ ?_
      intro k a
      by_cases h1 : k = i <;> by_cases h2 : a = f <;>
        simp [List.count_cons, h1, h2, SubmittedTask.mk.injEq, and_comm]
    · refine lenientSubmissions_count toProcessFiles iterationCount i f hnd hi hf _ ?_
      intro k a
      by_cases h1 : k = i <;> by_cases h2 : a = f <;>
        simp [List.count_cons, h1, h2, SubmittedTask.mk.injEq, and_comm]
  · intro t ht
    simp only [lenientSubmissions, List.mem_flatMap, List.mem_range] at ht
    obtain ⟨k, _, a, _, hta⟩ := ht
    rcases List.mem_cons.mp hta with rfl | hta
    · exact ⟨by simp, by simp, by simp⟩
    rcases List.mem_singleton.mp hta with rfl
    exact ⟨by simp, by simp, by simp⟩
  · unfold lenientGenResults
    rw [List.length_flatMap]
    have : (List.range iterationCount).map
          (List.length ∘ fun i => toProcessFiles.map (fun f =>
            if (parseErrs i f).isEmpty then genOk i f else defaultCompleted))
        = (List.range iterationCount).map (fun _ => toProcessFiles.length) := by
      refine List.map_congr_left ?_
      intro k _
      simp
    rw [this]
    simp [List.map_const']
  · intro i
    constructor
    · unfold lenientIterationEvents
      rw [List.getLast?_concat]
    · intro ev hev
      simp only [lenientIterationEvents, List.mem_append, List.mem_flatMap,
        List.mem_cons, List.not_mem_nil, or_false, List.mem_singleton] at hev
      rcases hev with (⟨a, _, ha⟩ | ⟨a, _, ha⟩) | rfl
      · rcases ha with rfl | rfl | rfl <;> rfl
      · rcases ha with rfl | rfl <;> rfl
      · rfl

/-- Witness for C7 at two files and two iterations. -/
theorem lenient_fanout_witness :
    ((lenientSubmissions [0, 1] 2).count
        (⟨.parseTask, 0, 0, []⟩ : SubmittedTask Nat) = 1)
    ∧ ((lenientSubmissions [0, 1] 2).count
        (⟨.genTask, 0, 0, [(.parseTask, 0, 0)]⟩ : SubmittedTask Nat) = 1) :=
  (lenient_fanout (fun _ _ => ([] : List (List Char))) (fun _ _ => true) true [0, 1] 2
      (by decide)).1 0 (by omega) 0 (by decide)

end Kodgen
